import Mathlib

/-!
Shallow embedding of the core of conda-merge (src/conda_merge.py): the
Graph Store (class DAG) and the Priority Merger (merge_channels), together
with proofs of the specified properties.

The Python OrderedDict `self.graph` is modelled as an insertion-ordered
association list from node names to successor lists.  Python exceptions
are modelled with Except: KeyError (missing node) and ValueError (cycle)
from the DAG, MergeError at the merge_channels level.
-/

namespace CondaMerge

abbrev Node := String

/-- The DAG state: `self.graph`, an OrderedDict node -> list of successors,
modelled as an insertion-ordered association list with unique keys. -/
abbrev Graph := List (Node × List Node)

/-- The keys of the graph, in insertion order (iteration order of the
OrderedDict). -/
def keys (g : Graph) : List Node := g.map Prod.fst

/-- Association-list lookup: the successor list stored for a node, if it
is present (OrderedDict `self.graph[n]` access / containment). -/
def lookupSuccs : Graph → Node → Option (List Node)
  | [], _ => none
  | p :: rest, n => if p.1 = n then some p.2 else lookupSuccs rest n

/-- Python: `node_name in self.graph`. -/
def hasNode (g : Graph) (n : Node) : Bool := (lookupSuccs g n).isSome

/-- `self.graph[n]` for a present node; `[]` for an absent one (only ever
used on present nodes, matching the dict accesses in the source). -/
def successors (g : Graph) (n : Node) : List Node := (lookupSuccs g n).getD []

/-- `DAG.add_node`: `if node_name not in self.graph: self.graph[node_name] = []`.
Appending at the end mirrors OrderedDict insertion order. -/
def add_node (g : Graph) (n : Node) : Graph :=
  if hasNode g n then g else g ++ [(n, [])]

/-- `self.graph[from_node].append(to_node)`: update the stored successor
list of `f` in place (an OrderedDict value update keeps the key position). -/
def appendEdge (g : Graph) (f t : Node) : Graph :=
  g.map (fun p => if p.1 = f then (p.1, p.2 ++ [t]) else p)

/-- The concatenation of all successor lists: the multiset underlying
`set(node for dependents in self.graph.values() for node in dependents)`
and the in-degree counts. -/
def allSuccs (g : Graph) : List Node := g.foldr (fun p acc => p.2 ++ acc) []

/-- `DAG.independent_nodes`: all nodes of the graph that appear in no
successor list. -/
def independent_nodes (g : Graph) : List Node :=
  (keys g).filter (fun n => !(allSuccs g).contains n)

/-- The `in_degree` dict right after the two initialisation loops of
`topological_sort`: the number of occurrences of a node across all
successor lists (Python ints, hence Int). -/
def initInDegree (g : Graph) (n : Node) : Int := ((allSuccs g).count n : Int)

/-- The seeding loop of `topological_sort`: all zero-in-degree nodes, in
dict iteration (= insertion) order.  `deque.appendleft` + `deque.pop` is a
FIFO discipline, so the queue is modelled as a list with its front at the
head. -/
def initialQueue (g : Graph) : List Node :=
  (keys g).filter (fun n => initInDegree g n = 0)

/-- The inner `for next_node in self.graph[independent_node]` loop:
decrement the in-degree of each successor in turn, enqueueing any that
reaches exactly zero (`queue.appendleft`, i.e. at the back of the FIFO). -/
def processSuccs (deg : Node → Int) (queue : List Node) :
    List Node → (Node → Int) × List Node
  | [] => (deg, queue)
  | t :: rest =>
    let deg' : Node → Int := fun m => if m = t then deg t - 1 else deg m
    let queue' := if deg' t = 0 then queue ++ [t] else queue
    processSuccs deg' queue' rest

/-- The `while queue` loop of `topological_sort`, threading `self.graph`
(read each iteration, never written) through the state.  Fuel bounds the
number of iterations; every node is dequeued at most once, so
`g.length` fuel is never exhausted with a non-empty queue (proved below). -/
def sortLoopG (g : Graph) : Nat → List Node → (Node → Int) → List Node →
    List Node × Graph
  | 0, _, _, out => (out, g)
  | _ + 1, [], _, out => (out, g)
  | fuel + 1, n :: q, deg, out =>
    let st := processSuccs deg q (successors g n)
    sortLoopG g fuel st.2 st.1 (out ++ [n])

/-- Errors raised by the DAG methods: Python KeyError (one or more nodes
do not exist) and ValueError (carrying its message string). -/
inductive DagError
  | keyError : DagError
  | valueError : String → DagError
deriving DecidableEq, Repr

/-- `DAG.topological_sort` as a state transformer on `self.graph`: the
Kahn loop followed by the completeness check
`len(sorted_nodes) == len(self.graph)`; on failure,
`ValueError('graph is not acyclic')`. -/
def topological_sortM (g : Graph) : Except DagError (List Node) × Graph :=
  let st := sortLoopG g g.length (initialQueue g) (initInDegree g) []
  (if st.1.length = st.2.length then Except.ok st.1
   else Except.error (DagError.valueError "graph is not acyclic"), st.2)

/-- The value returned by `DAG.topological_sort`. -/
def topological_sort (g : Graph) : Except DagError (List Node) :=
  (topological_sortM g).1

/-- `DAG.validate` as a state transformer: a non-empty independent-node
list and a successful topological sort. -/
def validateM (g : Graph) : Bool × Graph :=
  if (independent_nodes g).length > 0 then
    match topological_sortM g with
    | (Except.ok _, g') => (true, g')
    | (Except.error _, g') => (false, g')
  else (false, g)

/-- The value returned by `DAG.validate`. -/
def validate (g : Graph) : Bool := (validateM g).1

/-- `DAG.add_edge`.  Faithful to the source, including its slip: a
`test_graph` copy with the candidate edge is built and then never used —
`self.validate()` checks the graph WITHOUT the candidate edge. -/
def add_edge (g : Graph) (from_node to_node : Node) : Except DagError Graph :=
  if !hasNode g from_node || !hasNode g to_node then
    Except.error DagError.keyError
  else if (successors g from_node).contains to_node then
    Except.ok g
  else
    let _test_graph := appendEdge g from_node to_node
    if validate g then Except.ok (appendEdge g from_node to_node)
    else Except.error (DagError.valueError (from_node ++ " -> " ++ to_node))

/-- The inner loop of `merge_channels` over one channel list, after its
first element: `dag.add_node(channel); dag.add_edge(channels[i-1], channel)`
for each later element. -/
def addChain (g : Graph) (prev : Node) : List Node → Except DagError Graph
  | [] => Except.ok g
  | c :: rest =>
    match add_edge (add_node g c) prev c with
    | Except.error e => Except.error e
    | Except.ok g2 => addChain g2 c rest

/-- One iteration of `for channels in channels_list` for a present list:
`i = 0` adds only a node, every later index adds a node and an edge. -/
def addList (g : Graph) : List Node → Except DagError Graph
  | [] => Except.ok g
  | c :: rest => addChain (add_node g c) c rest

/-- The full graph-building loop of `merge_channels`, skipping absent
(`None`) channel lists. -/
def buildAll (g : Graph) : List (Option (List Node)) → Except DagError Graph
  | [] => Except.ok g
  | none :: rest => buildAll g rest
  | some ch :: rest =>
    match addList g ch with
    | Except.error e => Except.error e
    | Except.ok g1 => buildAll g1 rest

/-- Outcome of `merge_channels`: a merged ordering, a MergeError (its
message), or an exception that escapes the `except ValueError` handler
(a KeyError from `add_edge`; never happens, see C9). -/
inductive MergeOutcome
  | ok : List Node → MergeOutcome
  | mergeError : String → MergeOutcome
  | uncaught : MergeOutcome
deriving DecidableEq, Repr

/-- `merge_channels`: build the DAG from all channel lists, topologically
sort it, and wrap any ValueError as
`MergeError("Can't satisfy channels priority: " + msg)`. -/
def merge_channels (channels_list : List (Option (List Node))) : MergeOutcome :=
  match buildAll [] channels_list with
  | Except.error DagError.keyError => MergeOutcome.uncaught
  | Except.error (DagError.valueError m) =>
    MergeOutcome.mergeError ("Can't satisfy channels priority: " ++ m)
  | Except.ok g =>
    match topological_sort g with
    | Except.ok s => MergeOutcome.ok s
    | Except.error DagError.keyError => MergeOutcome.uncaught
    | Except.error (DagError.valueError m) =>
      MergeOutcome.mergeError ("Can't satisfy channels priority: " ++ m)

/-! ## Specification-side notions -/

/-- The edge relation of a graph: `b` is stored as a successor of `a`. -/
def edgeR (g : Graph) (a b : Node) : Prop := b ∈ successors g a

instance (g : Graph) (a b : Node) : Decidable (edgeR g a b) := by
  unfold edgeR; infer_instance

/-- A directed cycle: some node reaches itself through one or more edges. -/
def Cyclic (g : Graph) : Prop := ∃ n, Relation.TransGen (edgeR g) n n

/-- Acyclicity of the stored graph. -/
def Acyclic (g : Graph) : Prop := ¬ Cyclic g

/-- Well-formedness of the graph state, the §3 data-model invariant:
keys are unique (it is a dict) and every node referenced as a successor
exists as a key (no dangling edges). -/
def WF (g : Graph) : Prop :=
  (keys g).Nodup ∧ ∀ p ∈ g, ∀ t ∈ p.2, t ∈ keys g

instance (g : Graph) : Decidable (WF g) := by
  unfold WF; infer_instance

/-- `a` appears strictly before `b` in the list `l`. -/
def strictlyBefore (l : List Node) (a b : Node) : Prop :=
  ∃ i j : Nat, i < j ∧ l[i]? = some a ∧ l[j]? = some b

/-- All identifiers mentioned in any input list, in order of appearance
(absent lists contribute nothing). -/
def mentioned (ls : List (Option (List Node))) : List Node :=
  ls.flatMap (fun o => o.getD [])

/-- The pairwise ordering constraint derived from the inputs: `a`
immediately precedes `b` in some present input list. -/
def pairIn (ls : List (Option (List Node))) (a b : Node) : Prop :=
  ∃ l, some l ∈ ls ∧ (a, b) ∈ l.zip l.tail

/-- The combined constraints admit no cycle. -/
def AcyclicPairs (ls : List (Option (List Node))) : Prop :=
  ¬ ∃ n, Relation.TransGen (pairIn ls) n n

/-- The number of already-processed edges into m: occurrences of m among
the successor lists of the emitted nodes. -/
def procCount (g : Graph) (out : List Node) (m : Node) : Int :=
  ((out.flatMap (fun n => successors g n)).count m : Int)

/-- The node sequence collected by the Kahn loop of topological_sort
(before the final length check). -/
def kahnOutput (g : Graph) : List Node :=
  (sortLoopG g g.length (initialQueue g) (initInDegree g) []).1

/-- The nodes enqueued while walking one successor list: those whose
in-degree is driven to exactly zero by the decrements. -/
def enqueued (deg : Node → Int) : List Node → List Node
  | [] => []
  | t :: rest =>
    let deg' : Node → Int := fun m => if m = t then deg t - 1 else deg m
    (if deg t - 1 = 0 then [t] else []) ++ enqueued deg' rest

/-- The invariant of the Kahn while-loop, relating the queue, the
in-degree table and the emitted nodes. -/
def KahnInv (g : Graph) (queue : List Node) (deg : Node → Int)
    (out : List Node) : Prop :=
  (out ++ queue).Nodup ∧
  (∀ m ∈ out ++ queue, m ∈ keys g) ∧
  (∀ m, deg m = initInDegree g m - procCount g out m) ∧
  (∀ m ∈ queue, deg m = 0) ∧
  (∀ m ∈ out, deg m ≤ 0) ∧
  (∀ m ∈ keys g, deg m = 0 → m ∈ out ∨ m ∈ queue) ∧
  (∀ (j : Nat) (b : Node), out[j]? = some b → ∀ a, edgeR g a b →
    ∃ i : Nat, i < j ∧ out[i]? = some a)

/-! ## Basic lemmas about the association-list graph -/

theorem mem_keys_cons {p : Node × List Node} {rest : Graph} {n : Node} :
    n ∈ keys (p :: rest) ↔ n = p.1 ∨ n ∈ keys rest := by
  simp [keys]

theorem hasNode_iff_mem_keys (g : Graph) (n : Node) :
    hasNode g n = true ↔ n ∈ keys g := by
  induction g with
  | nil => simp [hasNode, lookupSuccs, keys]
  | cons p rest ih =>
    by_cases h : p.1 = n
    · simp [hasNode, lookupSuccs, h, mem_keys_cons]
    · rw [mem_keys_cons]
      simp only [hasNode, lookupSuccs, if_neg h]
      rw [← ih]
      simp [hasNode, Ne.symm h]

theorem lookupSuccs_mem {g : Graph} {n : Node} {l : List Node}
    (h : lookupSuccs g n = some l) : (n, l) ∈ g := by
  induction g with
  | nil => simp [lookupSuccs] at h
  | cons p rest ih =>
    by_cases hp : p.1 = n
    · simp [lookupSuccs, hp] at h
      subst hp h
      exact List.mem_cons_self _ _
    · simp [lookupSuccs, hp] at h
      exact List.mem_cons_of_mem _ (ih h)

theorem lookupSuccs_eq_none {g : Graph} {n : Node} :
    lookupSuccs g n = none ↔ n ∉ keys g := by
  induction g with
  | nil => simp [lookupSuccs, keys]
  | cons p rest ih =>
    rw [mem_keys_cons]
    by_cases hp : p.1 = n
    · simp [lookupSuccs, hp]
    · simp [lookupSuccs, hp, ih, Ne.symm hp]

theorem successors_mem_keys {g : Graph} {n t : Node}
    (h : t ∈ successors g n) : n ∈ keys g := by
  unfold successors at h
  cases hl : lookupSuccs g n with
  | none => rw [hl] at h; simp at h
  | some l =>
    have := lookupSuccs_mem hl
    exact List.mem_map.2 ⟨(n, l), this, rfl⟩

theorem successors_closed {g : Graph} (hwf : WF g) {n t : Node}
    (h : t ∈ successors g n) : t ∈ keys g := by
  unfold successors at h
  cases hl : lookupSuccs g n with
  | none => rw [hl] at h; simp at h
  | some l =>
    rw [hl] at h
    exact hwf.2 (n, l) (lookupSuccs_mem hl) t h

theorem edgeR_source_mem {g : Graph} {a b : Node} (h : edgeR g a b) :
    a ∈ keys g := successors_mem_keys h

theorem edgeR_target_mem {g : Graph} (hwf : WF g) {a b : Node}
    (h : edgeR g a b) : b ∈ keys g := successors_closed hwf h

/-- allSuccs is the flattening of the stored successor lists. -/
theorem allSuccs_eq (g : Graph) : allSuccs g = (g.map Prod.snd).flatten := by
  induction g with
  | nil => rfl
  | cons p rest ih => simp [allSuccs, List.foldr] at ih ⊢; exact ih

/-- Under unique keys, the stored successor lists are exactly the values
returned by lookups on the keys, in order. -/
theorem map_snd_eq_map_successors {g : Graph} (hnd : (keys g).Nodup) :
    g.map Prod.snd = (keys g).map (fun n => successors g n) := by
  induction g with
  | nil => rfl
  | cons p rest ih =>
    have hnd' : (keys rest).Nodup := (List.nodup_cons.1 hnd).2
    have hp : p.1 ∉ keys rest := (List.nodup_cons.1 hnd).1
    simp only [keys, List.map_cons] at *
    have hhead : successors (p :: rest) p.1 = p.2 := by
      simp [successors, lookupSuccs]
    have htail : ∀ n ∈ List.map Prod.fst rest,
        successors rest n = successors (p :: rest) n := by
      intro n hn
      have hne : p.1 ≠ n := by rintro rfl; exact hp hn
      simp [successors, lookupSuccs, hne]
    rw [hhead, ih hnd', List.map_congr_left htail]

theorem allSuccs_eq_flatMap {g : Graph} (hnd : (keys g).Nodup) :
    allSuccs g = (keys g).flatMap (fun n => successors g n) := by
  rw [allSuccs_eq, map_snd_eq_map_successors hnd, List.flatMap_def]

/-! ### add_node -/

theorem add_node_of_mem {g : Graph} {n : Node} (h : n ∈ keys g) :
    add_node g n = g := by
  unfold add_node
  rw [if_pos ((hasNode_iff_mem_keys g n).2 h)]

theorem add_node_of_not_mem {g : Graph} {n : Node} (h : n ∉ keys g) :
    add_node g n = g ++ [(n, [])] := by
  unfold add_node
  rw [if_neg (by simp [hasNode_iff_mem_keys, h])]

theorem keys_add_node (g : Graph) (n m : Node) :
    m ∈ keys (add_node g n) ↔ m ∈ keys g ∨ m = n := by
  by_cases h : n ∈ keys g
  · rw [add_node_of_mem h]
    constructor
    · exact fun hm => Or.inl hm
    · rintro (hm | rfl) <;> [exact hm; exact h]
  · rw [add_node_of_not_mem h]
    simp [keys, Eq.comm]

theorem lookupSuccs_append_left {g1 g2 : Graph} {n : Node}
    (h : n ∈ keys g1) :
    lookupSuccs (g1 ++ g2) n = lookupSuccs g1 n := by
  induction g1 with
  | nil => simp [keys] at h
  | cons p rest ih =>
    by_cases hp : p.1 = n
    · simp [lookupSuccs, hp]
    · have : n ∈ keys rest := by
        rcases mem_keys_cons.1 h with h | h
        · exact absurd h.symm hp
        · exact h
      simp [lookupSuccs, hp, ih this]

theorem lookupSuccs_append_right {g1 g2 : Graph} {n : Node}
    (h : n ∉ keys g1) :
    lookupSuccs (g1 ++ g2) n = lookupSuccs g2 n := by
  induction g1 with
  | nil => rfl
  | cons p rest ih =>
    have hp : p.1 ≠ n := by
      intro he; exact h (mem_keys_cons.2 (Or.inl he.symm))
    have : n ∉ keys rest := fun hm => h (mem_keys_cons.2 (Or.inr hm))
    simp [lookupSuccs, hp, ih this]

theorem successors_add_node (g : Graph) (n m : Node) :
    successors (add_node g n) m = successors g m := by
  by_cases h : n ∈ keys g
  · rw [add_node_of_mem h]
  · rw [add_node_of_not_mem h]
    by_cases hm : m ∈ keys g
    · unfold successors; rw [lookupSuccs_append_left hm]
    · unfold successors
      rw [lookupSuccs_append_right hm]
      have : lookupSuccs g m = none := lookupSuccs_eq_none.2 hm
      rw [this]
      by_cases he : n = m
      · simp [lookupSuccs, he]
      · simp [lookupSuccs, he]

theorem edgeR_add_node (g : Graph) (n a b : Node) :
    edgeR (add_node g n) a b ↔ edgeR g a b := by
  unfold edgeR; rw [successors_add_node]

theorem WF_add_node {g : Graph} (hwf : WF g) (n : Node) :
    WF (add_node g n) := by
  by_cases h : n ∈ keys g
  · rwa [add_node_of_mem h]
  · rw [add_node_of_not_mem h]
    constructor
    · unfold keys
      rw [List.map_append]
      simp only [List.map_cons, List.map_nil]
      rw [List.nodup_append]
      refine ⟨hwf.1, List.nodup_singleton n, ?_⟩
      intro a ha hb
      simp at hb
      subst hb
      exact h ha
    · intro p hp t ht
      rcases List.mem_append.1 hp with hp | hp
      · have : t ∈ keys g := hwf.2 p hp t ht
        unfold keys; rw [List.map_append]; exact List.mem_append_left _ this
      · simp at hp
        subst hp
        simp at ht

/-! ### appendEdge -/

theorem keys_appendEdge (g : Graph) (f t : Node) :
    keys (appendEdge g f t) = keys g := by
  induction g with
  | nil => rfl
  | cons p rest ih =>
    by_cases hp : p.1 = f <;> simp [appendEdge, keys, hp] at ih ⊢ <;> exact ih

theorem successors_appendEdge_self {g : Graph} {f : Node} (h : f ∈ keys g)
    (t : Node) :
    successors (appendEdge g f t) f = successors g f ++ [t] := by
  induction g with
  | nil => simp [keys] at h
  | cons p rest ih =>
    by_cases hp : p.1 = f
    · simp [appendEdge, successors, lookupSuccs, hp]
    · have : f ∈ keys rest := by
        rcases mem_keys_cons.1 h with h | h
        · exact absurd h.symm hp
        · exact h
      simpa [appendEdge, successors, lookupSuccs, hp] using ih this

theorem successors_appendEdge_other (g : Graph) {f m : Node} (hne : m ≠ f)
    (t : Node) :
    successors (appendEdge g f t) m = successors g m := by
  induction g with
  | nil => rfl
  | cons p rest ih =>
    by_cases hp : p.1 = m
    · have : ¬p.1 = f := by rw [hp]; exact hne
      simp [appendEdge, successors, lookupSuccs, hp, this, hne]
    · by_cases hf : p.1 = f
      · simpa [appendEdge, successors, lookupSuccs, hp, hf, hne.symm] using ih
      · simpa [appendEdge, successors, lookupSuccs, hp, hf] using ih

theorem edgeR_appendEdge {g : Graph} {f : Node} (h : f ∈ keys g)
    (t a b : Node) :
    edgeR (appendEdge g f t) a b ↔ edgeR g a b ∨ (a = f ∧ b = t) := by
  unfold edgeR
  by_cases ha : a = f
  · subst ha
    rw [successors_appendEdge_self h t]
    simp
  · rw [successors_appendEdge_other g ha t]
    simp [ha]

theorem WF_appendEdge {g : Graph} (hwf : WF g) {f t : Node}
    (_hf : f ∈ keys g) (ht : t ∈ keys g) : WF (appendEdge g f t) := by
  constructor
  · rw [keys_appendEdge]; exact hwf.1
  · intro p hp u hu
    rw [keys_appendEdge]
    simp only [appendEdge, List.mem_map] at hp
    obtain ⟨q, hq, hpq⟩ := hp
    by_cases hqf : q.1 = f
    · rw [if_pos hqf] at hpq
      subst hpq
      simp at hu
      rcases hu with hu | hu
      · exact hwf.2 q hq u hu
      · subst hu; exact ht
    · rw [if_neg hqf] at hpq
      subst hpq
      exact hwf.2 q hq u hu

/-! ### add_edge: characterization of successful calls -/

theorem add_edge_ok_cases {g g' : Graph} {f t : Node}
    (h : add_edge g f t = Except.ok g') :
    f ∈ keys g ∧ t ∈ keys g ∧
      ((g' = g ∧ t ∈ successors g f) ∨
        (g' = appendEdge g f t ∧ t ∉ successors g f ∧ validate g = true)) := by
  unfold add_edge at h
  by_cases hf : hasNode g f <;> by_cases ht : hasNode g t
  · rw [if_neg (by simp [hf, ht])] at h
    refine ⟨(hasNode_iff_mem_keys g f).1 hf, (hasNode_iff_mem_keys g t).1 ht, ?_⟩
    by_cases hmem : (successors g f).contains t
    · rw [if_pos hmem] at h
      exact Or.inl ⟨(Except.ok.inj h).symm, by simpa using hmem⟩
    · rw [if_neg hmem] at h
      by_cases hv : validate g
      · rw [if_pos hv] at h
        exact Or.inr ⟨(Except.ok.inj h).symm, by simpa using hmem, hv⟩
      · rw [if_neg hv] at h
        simp at h
  · rw [if_pos (by simp [ht])] at h; simp at h
  · rw [if_pos (by simp [hf])] at h; simp at h
  · rw [if_pos (by simp [hf])] at h; simp at h

theorem add_edge_ok_spec {g g' : Graph} {f t : Node} (hwf : WF g)
    (h : add_edge g f t = Except.ok g') :
    WF g' ∧ keys g' = keys g ∧
      ∀ a b, edgeR g' a b ↔ edgeR g a b ∨ (a = f ∧ b = t) := by
  obtain ⟨hf, ht, hcase⟩ := add_edge_ok_cases h
  rcases hcase with ⟨rfl, hmem⟩ | ⟨rfl, -, -⟩
  · refine ⟨hwf, rfl, fun a b => ?_⟩
    constructor
    · exact Or.inl
    · rintro (he | ⟨rfl, rfl⟩) <;> [exact he; exact hmem]
  · exact ⟨WF_appendEdge hwf hf ht, keys_appendEdge g f t,
      edgeR_appendEdge hf t⟩

theorem add_edge_ok_keys {g g' : Graph} {f t : Node}
    (h : add_edge g f t = Except.ok g') : keys g' = keys g := by
  obtain ⟨-, -, hcase⟩ := add_edge_ok_cases h
  rcases hcase with ⟨rfl, -⟩ | ⟨rfl, -, -⟩
  · rfl
  · exact keys_appendEdge g f t

/-! ### processSuccs and the enqueued nodes -/

theorem processSuccs_deg (deg : Node → Int) (queue : List Node)
    (l : List Node) (m : Node) :
    (processSuccs deg queue l).1 m = deg m - l.count m := by
  induction l generalizing deg queue with
  | nil => simp [processSuccs]
  | cons t rest ih =>
    rw [processSuccs, ih]
    by_cases hm : m = t
    · subst hm; simp [List.count_cons]; ring
    · simp [hm, List.count_cons, Ne.symm hm]

theorem processSuccs_queue (deg : Node → Int) (queue : List Node)
    (l : List Node) :
    (processSuccs deg queue l).2 = queue ++ enqueued deg l := by
  induction l generalizing deg queue with
  | nil => simp [processSuccs, enqueued]
  | cons t rest ih =>
    rw [processSuccs, enqueued, ih]
    by_cases h : deg t - 1 = 0 <;> simp [h]

theorem mem_enqueued {deg : Node → Int} {l : List Node} {m : Node} :
    m ∈ enqueued deg l ↔ 1 ≤ deg m ∧ deg m ≤ l.count m := by
  induction l generalizing deg with
  | nil => simp [enqueued]; omega
  | cons t rest ih =>
    rw [enqueued]
    by_cases hm : m = t
    · subst hm
      by_cases h : deg m - 1 = 0
      · simp only [if_pos h, List.count_cons]
        simp [ih]
        omega
      · simp only [if_neg h, List.count_cons]
        simp [ih]
        omega
    · by_cases h : deg t - 1 = 0 <;>
        simp only [if_pos, if_neg, h, List.count_cons] <;>
        simp [ih, hm, Ne.symm hm]

theorem nodup_enqueued (deg : Node → Int) (l : List Node) :
    (enqueued deg l).Nodup := by
  induction l generalizing deg with
  | nil => simp [enqueued]
  | cons t rest ih =>
    rw [enqueued]
    by_cases h : deg t - 1 = 0
    · simp only [if_pos h]
      simp only [List.singleton_append, List.nodup_cons]
      refine ⟨?_, ih _⟩
      rw [mem_enqueued]
      simp
      intro h1
      omega
    · simp only [if_neg h]
      simpa using ih _

/-! ### Counting processed edges -/

theorem procCount_append (g : Graph) (out : List Node) (n m : Node) :
    procCount g (out ++ [n]) m =
      procCount g out m + ((successors g n).count m : Int) := by
  unfold procCount
  rw [List.flatMap_append, List.count_append]
  push_cast
  simp

/-- Splitting the total in-degree of m into the part contributed by an
emitted set and the part contributed by the remaining keys. -/
theorem count_split {g : Graph} (hnd : (keys g).Nodup) {out : List Node}
    (hndo : out.Nodup) (hsub : ∀ x ∈ out, x ∈ keys g) :
    ∃ w : List Node,
      (∀ a ∈ w, a ∈ keys g ∧ a ∉ out) ∧
      ∀ m, initInDegree g m = procCount g out m +
        ((w.flatMap (fun n => successors g n)).count m : Int) := by
  obtain ⟨u, hup, hus⟩ := hndo.subperm hsub
  obtain ⟨w, hw⟩ := hus.exists_perm_append
  refine ⟨w, ?_, ?_⟩
  · intro a haw
    have hamem : a ∈ keys g := hw.mem_iff.2 (List.mem_append_right u haw)
    have hnd2 : (u ++ w).Nodup := hw.nodup_iff.1 hnd
    have : a ∉ u := fun hau => (List.disjoint_of_nodup_append hnd2) hau haw
    exact ⟨hamem, fun hao => this (hup.mem_iff.2 hao)⟩
  · intro m
    unfold initInDegree procCount
    rw [allSuccs_eq_flatMap hnd]
    have h1 : ((keys g).flatMap (fun n => successors g n)).count m =
        ((u ++ w).flatMap (fun n => successors g n)).count m :=
      (hw.flatMap_right _).count_eq m
    have h2 : (u.flatMap (fun n => successors g n)).count m =
        (out.flatMap (fun n => successors g n)).count m :=
      (hup.flatMap_right _).count_eq m
    rw [h1, List.flatMap_append, List.count_append, h2]
    push_cast
    ring

theorem procCount_le_initInDegree {g : Graph} (hnd : (keys g).Nodup)
    {out : List Node} (hndo : out.Nodup) (hsub : ∀ x ∈ out, x ∈ keys g)
    (m : Node) : procCount g out m ≤ initInDegree g m := by
  obtain ⟨w, -, hcount⟩ := count_split hnd hndo hsub
  have := hcount m
  omega

theorem exists_pred_of_procCount_lt {g : Graph} (hnd : (keys g).Nodup)
    {out : List Node} (hndo : out.Nodup) (hsub : ∀ x ∈ out, x ∈ keys g)
    {m : Node} (hlt : procCount g out m < initInDegree g m) :
    ∃ a, a ∈ keys g ∧ a ∉ out ∧ m ∈ successors g a := by
  obtain ⟨w, hwmem, hcount⟩ := count_split hnd hndo hsub
  have hm := hcount m
  have hpos : 0 < (w.flatMap (fun n => successors g n)).count m := by omega
  have := List.count_pos_iff.1 hpos
  obtain ⟨a, haw, ham⟩ := List.mem_flatMap.1 this
  exact ⟨a, (hwmem a haw).1, (hwmem a haw).2, ham⟩

/-! ### The Kahn loop invariant is preserved by one iteration -/

theorem KahnInv_step {g : Graph} (hwf : WF g) {n : Node} {q : List Node}
    {deg : Node → Int} {out : List Node}
    (hinv : KahnInv g (n :: q) deg out) :
    KahnInv g (processSuccs deg q (successors g n)).2
      (processSuccs deg q (successors g n)).1 (out ++ [n]) := by
  obtain ⟨hnd, hmem, hacc, hq0, hout0, hzero, hresp⟩ := hinv
  have hdeg' : ∀ m, (processSuccs deg q (successors g n)).1 m =
      deg m - ((successors g n).count m : Int) :=
    fun m => processSuccs_deg deg q (successors g n) m
  have hq' : (processSuccs deg q (successors g n)).2 =
      q ++ enqueued deg (successors g n) :=
    processSuccs_queue deg q (successors g n)
  have hnK : n ∈ keys g := hmem n (by simp)
  have hdisj : out.Disjoint (n :: q) := List.disjoint_of_nodup_append hnd
  have hnout : n ∉ out := fun h => hdisj h (List.mem_cons_self n q)
  have hdegn : deg n = 0 := hq0 n (List.mem_cons_self n q)
  have hnodup_out' : (out ++ [n]).Nodup := by
    rw [List.nodup_append]
    refine ⟨(List.nodup_append.1 hnd).1, List.nodup_singleton n, ?_⟩
    intro x hx hxn
    simp at hxn
    subst hxn
    exact hnout hx
  have hsub_out' : ∀ x ∈ out ++ [n], x ∈ keys g := by
    intro x hx
    rcases List.mem_append.1 hx with hx | hx
    · exact hmem x (List.mem_append_left _ hx)
    · simp at hx; subst hx; exact hnK
  have hB : ∀ m, deg m = 0 → (successors g n).count m = 0 := by
    intro m hm
    have h1 := procCount_le_initInDegree hwf.1 hnodup_out' hsub_out' m
    rw [procCount_append] at h1
    have h2 := hacc m
    omega
  have hA : ∀ a, edgeR g a n → a ∈ out := by
    intro a ha
    by_contra hao
    have haK : a ∈ keys g := edgeR_source_mem ha
    have hnodup2 : (out ++ [a]).Nodup := by
      rw [List.nodup_append]
      refine ⟨(List.nodup_append.1 hnd).1, List.nodup_singleton a, ?_⟩
      intro x hx hxa
      simp at hxa
      subst hxa
      exact hao hx
    have hsub2 : ∀ x ∈ out ++ [a], x ∈ keys g := by
      intro x hx
      rcases List.mem_append.1 hx with hx | hx
      · exact hmem x (List.mem_append_left _ hx)
      · simp at hx; subst hx; exact haK
    have h1 := procCount_le_initInDegree hwf.1 hnodup2 hsub2 n
    rw [procCount_append] at h1
    have hcnt : 0 < (successors g a).count n := List.count_pos_iff.2 ha
    have h2 := hacc n
    omega
  unfold KahnInv
  rw [hq']
  refine ⟨?_, ?_, ?_, ?_, ?_, ?_, ?_⟩
  · have heq : (out ++ [n]) ++ (q ++ enqueued deg (successors g n)) =
        (out ++ n :: q) ++ enqueued deg (successors g n) := by
      simp
    rw [heq, List.nodup_append]
    refine ⟨hnd, nodup_enqueued _ _, ?_⟩
    intro x hx hxe
    obtain ⟨h1, h2⟩ := mem_enqueued.1 hxe
    rcases List.mem_append.1 hx with hxo | hxq
    · have := hout0 x hxo; omega
    · rcases List.mem_cons.1 hxq with rfl | hxq
      · omega
      · have := hq0 x (List.mem_cons_of_mem _ hxq); omega
  · intro x hx
    rcases List.mem_append.1 hx with hx | hx
    · exact hsub_out' x hx
    · rcases List.mem_append.1 hx with hx | hx
      · exact hmem x (List.mem_append_right _ (List.mem_cons_of_mem _ hx))
      · obtain ⟨h1, h2⟩ := mem_enqueued.1 hx
        have : 0 < (successors g n).count x := by omega
        exact successors_closed hwf (List.count_pos_iff.1 this)
  · intro m
    rw [hdeg' m, procCount_append]
    have := hacc m
    omega
  · intro m hm
    rw [hdeg' m]
    rcases List.mem_append.1 hm with hmq | hme
    · have h0 := hq0 m (List.mem_cons_of_mem _ hmq)
      have := hB m h0
      omega
    · obtain ⟨h1, h2⟩ := mem_enqueued.1 hme
      have hge : procCount g (out ++ [n]) m ≤ initInDegree g m :=
        procCount_le_initInDegree hwf.1 hnodup_out' hsub_out' m
      rw [procCount_append] at hge
      have := hacc m
      omega
  · intro m hm
    rw [hdeg' m]
    rcases List.mem_append.1 hm with hmo | hmn
    · have := hout0 m hmo
      have : (0 : Int) ≤ ((successors g n).count m : Int) := by positivity
      omega
    · simp at hmn
      subst hmn
      omega
  · intro m hmk h0
    rw [hdeg' m] at h0
    by_cases hc : (successors g n).count m = 0
    · have hdm : deg m = 0 := by omega
      rcases hzero m hmk hdm with hout | hnq
      · exact Or.inl (List.mem_append_left _ hout)
      · rcases List.mem_cons.1 hnq with rfl | hq
        · exact Or.inl (List.mem_append_right _ (by simp))
        · exact Or.inr (List.mem_append_left _ hq)
    · refine Or.inr (List.mem_append_right _ (mem_enqueued.2 ⟨by omega, by omega⟩))
  · intro j b hjb a hab
    by_cases hj : j < out.length
    · rw [List.getElem?_append_left hj] at hjb
      obtain ⟨i, hij, hi⟩ := hresp j b hjb a hab
      exact ⟨i, hij, by
        rw [List.getElem?_append_left (lt_trans hij hj)]; exact hi⟩
    · by_cases hj2 : j = out.length
      · subst hj2
        have hbn : b = n := by
          have : (out ++ [n])[out.length]? = some n := by simp
          rw [this] at hjb
          exact (Option.some.inj hjb).symm
        subst hbn
        have hao : a ∈ out := hA a hab
        obtain ⟨i, hilt, hival⟩ := List.getElem_of_mem hao
        refine ⟨i, hilt, ?_⟩
        rw [List.getElem?_append_left hilt, List.getElem?_eq_getElem hilt,
          hival]
      · exfalso
        have hlen : (out ++ [n]).length ≤ j := by
          simp
          omega
        rw [List.getElem?_eq_none hlen] at hjb
        cases hjb

/-! ### End state of the loop and the full loop specification -/

theorem kahnFinal {g : Graph} (hwf : WF g) {deg : Node → Int}
    {out : List Node} (hinv : KahnInv g [] deg out) :
    out.Nodup ∧ (∀ m ∈ out, m ∈ keys g) ∧
    (∀ (j : Nat) (b : Node), out[j]? = some b → ∀ a, edgeR g a b →
      ∃ i : Nat, i < j ∧ out[i]? = some a) ∧
    (∀ m ∈ keys g, m ∉ out → ∃ a, a ∈ keys g ∧ a ∉ out ∧ edgeR g a m) := by
  obtain ⟨hnd, hmem, hacc, -, -, hzero, hresp⟩ := hinv
  rw [List.append_nil] at hnd hmem
  refine ⟨hnd, hmem, hresp, ?_⟩
  intro m hmk hmo
  have hne : deg m ≠ 0 := by
    intro h0
    rcases hzero m hmk h0 with h | h
    · exact hmo h
    · simp at h
  have hle := procCount_le_initInDegree hwf.1 hnd hmem m
  have hm := hacc m
  have hlt : procCount g out m < initInDegree g m := by omega
  obtain ⟨a, ha1, ha2, ha3⟩ := exists_pred_of_procCount_lt hwf.1 hnd hmem hlt
  exact ⟨a, ha1, ha2, ha3⟩

theorem keys_length (g : Graph) : (keys g).length = g.length :=
  List.length_map g Prod.fst

theorem queue_nil_of_no_fuel {g : Graph} {q deg out}
    (hinv : KahnInv g q deg out) (hlen : g.length ≤ out.length) : q = [] := by
  obtain ⟨hnd, hmem, -, -, -, -, -⟩ := hinv
  have hsp := hnd.subperm hmem
  have := hsp.length_le
  rw [keys_length] at this
  simp at this
  have : q.length = 0 := by omega
  exact List.eq_nil_of_length_eq_zero this

theorem sortLoop_spec {g : Graph} (hwf : WF g) :
    ∀ (fuel : Nat) (q : List Node) (deg : Node → Int) (out : List Node),
      KahnInv g q deg out → g.length ≤ fuel + out.length →
      (∃ rest, (sortLoopG g fuel q deg out).1 = out ++ q ++ rest) ∧
      (sortLoopG g fuel q deg out).1.Nodup ∧
      (∀ m ∈ (sortLoopG g fuel q deg out).1, m ∈ keys g) ∧
      (∀ (j : Nat) (b : Node), (sortLoopG g fuel q deg out).1[j]? = some b →
        ∀ a, edgeR g a b →
          ∃ i : Nat, i < j ∧ (sortLoopG g fuel q deg out).1[i]? = some a) ∧
      (∀ m ∈ keys g, m ∉ (sortLoopG g fuel q deg out).1 →
        ∃ a, a ∈ keys g ∧ a ∉ (sortLoopG g fuel q deg out).1 ∧ edgeR g a m) := by
  intro fuel
  induction fuel with
  | zero =>
    intro q deg out hinv hlen
    have hq : q = [] := queue_nil_of_no_fuel hinv (by omega)
    subst hq
    obtain ⟨h1, h2, h3, h4⟩ := kahnFinal hwf hinv
    exact ⟨⟨[], by simp [sortLoopG]⟩, h1, h2, h3, h4⟩
  | succ fuel ih =>
    intro q deg out hinv hlen
    cases q with
    | nil =>
      obtain ⟨h1, h2, h3, h4⟩ := kahnFinal hwf hinv
      exact ⟨⟨[], by simp [sortLoopG]⟩, h1, h2, h3, h4⟩
    | cons n q0 =>
      have hstep := KahnInv_step hwf hinv
      have hlen' : g.length ≤ fuel + (out ++ [n]).length := by
        simp
        omega
      obtain ⟨⟨rest, hrest⟩, h2, h3, h4⟩ := ih _ _ _ hstep hlen'
      have hunfold : sortLoopG g (fuel + 1) (n :: q0) deg out =
          sortLoopG g fuel (processSuccs deg q0 (successors g n)).2
            (processSuccs deg q0 (successors g n)).1 (out ++ [n]) := rfl
      rw [hunfold]
      refine ⟨?_, h2, h3, h4⟩
      refine ⟨enqueued deg (successors g n) ++ rest, ?_⟩
      rw [hrest, processSuccs_queue]
      simp

/-! ### Top-level properties of topological_sort -/

theorem sortLoopG_graph (g : Graph) :
    ∀ (fuel : Nat) (q : List Node) (deg : Node → Int) (out : List Node),
      (sortLoopG g fuel q deg out).2 = g := by
  intro fuel
  induction fuel with
  | zero => intro q deg out; rfl
  | succ fuel ih =>
    intro q deg out
    cases q with
    | nil => rfl
    | cons n q0 => exact ih _ _ _

theorem topological_sort_eq (g : Graph) :
    topological_sort g =
      if (kahnOutput g).length = g.length then Except.ok (kahnOutput g)
      else Except.error (DagError.valueError "graph is not acyclic") := by
  simp only [topological_sort, topological_sortM, kahnOutput,
    sortLoopG_graph]

theorem KahnInv_init {g : Graph} (hwf : WF g) :
    KahnInv g (initialQueue g) (initInDegree g) [] := by
  have hpc : ∀ m, procCount g [] m = 0 := by intro m; simp [procCount]
  refine ⟨?_, ?_, ?_, ?_, ?_, ?_, ?_⟩
  · rw [List.nil_append]
    exact hwf.1.filter _
  · intro m hm
    rw [List.nil_append] at hm
    exact List.mem_of_mem_filter hm
  · intro m
    rw [hpc m]
    ring
  · intro m hm
    have := (List.mem_filter.1 hm).2
    simpa using this
  · intro m hm
    simp at hm
  · intro m hmk h0
    exact Or.inr (List.mem_filter.2 ⟨hmk, by simpa using h0⟩)
  · intro j b hjb
    simp at hjb

theorem kahnOutput_props {g : Graph} (hwf : WF g) :
    (∃ rest, kahnOutput g = initialQueue g ++ rest) ∧
    (kahnOutput g).Nodup ∧
    (∀ m ∈ kahnOutput g, m ∈ keys g) ∧
    (∀ (j : Nat) (b : Node), (kahnOutput g)[j]? = some b →
      ∀ a, edgeR g a b → ∃ i : Nat, i < j ∧ (kahnOutput g)[i]? = some a) ∧
    (∀ m ∈ keys g, m ∉ kahnOutput g →
      ∃ a, a ∈ keys g ∧ a ∉ kahnOutput g ∧ edgeR g a m) := by
  have h := sortLoop_spec hwf g.length (initialQueue g) (initInDegree g) []
    (KahnInv_init hwf) (by simp)
  unfold kahnOutput
  obtain ⟨⟨rest, hrest⟩, h2, h3, h4, h5⟩ := h
  exact ⟨⟨rest, by simpa using hrest⟩, h2, h3, h4, h5⟩

theorem kahnOutput_length_le {g : Graph} (hwf : WF g) :
    (kahnOutput g).length ≤ g.length := by
  obtain ⟨-, h2, h3, -, -⟩ := kahnOutput_props hwf
  have := (h2.subperm h3).length_le
  rwa [keys_length] at this

/-- If every member of a non-empty finite set has an R-predecessor inside
the set, R has a cycle. -/
theorem cycle_of_all_have_pred (R : Node → Node → Prop) (S : Finset Node)
    (hne : S.Nonempty) (hpred : ∀ m ∈ S, ∃ a ∈ S, R a m) :
    ∃ n, Relation.TransGen R n n := by
  classical
  obtain ⟨n0, hn0⟩ := hne
  have hex : ∀ m, ∃ a, m ∈ S → a ∈ S ∧ R a m := by
    intro m
    by_cases hm : m ∈ S
    · obtain ⟨a, ha, hr⟩ := hpred m hm
      exact ⟨a, fun _ => ⟨ha, hr⟩⟩
    · exact ⟨m, fun h => absurd h hm⟩
  choose F hF using hex
  have hseq_mem : ∀ k : Nat, F^[k] n0 ∈ S := by
    intro k
    induction k with
    | zero => exact hn0
    | succ k ih =>
      rw [Function.iterate_succ_apply']
      exact (hF _ ih).1
  have hseq_step : ∀ k : Nat, R (F^[k + 1] n0) (F^[k] n0) := by
    intro k
    rw [Function.iterate_succ_apply']
    exact (hF _ (hseq_mem k)).2
  have hchain : ∀ i j : Nat, i < j →
      Relation.TransGen R (F^[j] n0) (F^[i] n0) := by
    intro i j hij
    induction j with
    | zero => omega
    | succ j ih =>
      by_cases hj : i = j
      · subst hj
        exact Relation.TransGen.single (hseq_step i)
      · have hij' : i < j := by omega
        exact (ih hij').head (hseq_step j)
  have hmaps : ∀ k ∈ Finset.range (S.card + 1), F^[k] n0 ∈ S :=
    fun k _ => hseq_mem k
  have hcard : S.card < (Finset.range (S.card + 1)).card := by
    rw [Finset.card_range]
    omega
  obtain ⟨x, -, y, -, hxy, hval⟩ :=
    Finset.exists_ne_map_eq_of_card_lt_of_maps_to hcard hmaps
  rcases Nat.lt_or_ge x y with hlt | hge
  · exact ⟨F^[x] n0, by
      have := hchain x y hlt
      rwa [← hval] at this⟩
  · have hlt : y < x := by omega
    exact ⟨F^[y] n0, by
      have := hchain y x hlt
      rwa [hval] at this⟩

theorem kahnOutput_complete {g : Graph} (hwf : WF g) (hac : Acyclic g) :
    ∀ m ∈ keys g, m ∈ kahnOutput g := by
  classical
  by_contra hcon
  push_neg at hcon
  obtain ⟨m0, hm0k, hm0⟩ := hcon
  obtain ⟨-, -, -, -, h5⟩ := kahnOutput_props hwf
  have hcyc := cycle_of_all_have_pred (edgeR g)
    ((keys g).toFinset.filter (fun m => m ∉ kahnOutput g))
    ⟨m0, by simp [hm0k, hm0]⟩
    (by
      intro x hx
      simp only [Finset.mem_filter, List.mem_toFinset] at hx
      obtain ⟨a, ha1, ha2, ha3⟩ := h5 x hx.1 hx.2
      exact ⟨a, by simp [ha1, ha2], ha3⟩)
  exact hac hcyc

/-- Positions in the output respect not only edges but edge paths. -/
theorem transGen_before {g : Graph} {s : List Node}
    (hresp : ∀ (j : Nat) (b : Node), s[j]? = some b → ∀ a, edgeR g a b →
      ∃ i : Nat, i < j ∧ s[i]? = some a)
    {a b : Node} (h : Relation.TransGen (edgeR g) a b) :
    ∀ j : Nat, s[j]? = some b → ∃ i : Nat, i < j ∧ s[i]? = some a := by
  induction h with
  | single hr =>
    intro j hj
    exact hresp j _ hj _ hr
  | tail hab hbc ih =>
    intro j hj
    obtain ⟨jb, hjb, hjbval⟩ := hresp j _ hj _ hbc
    obtain ⟨i, hi, hival⟩ := ih jb hjbval
    exact ⟨i, lt_trans hi hjb, hival⟩

theorem mem_exists_getElem? {s : List Node} {a : Node} (h : a ∈ s) :
    ∃ j : Nat, s[j]? = some a := by
  obtain ⟨j, hj, hval⟩ := List.getElem_of_mem h
  exact ⟨j, by rw [List.getElem?_eq_getElem hj, hval]⟩

theorem kahnOutput_short_of_cyclic {g : Graph} (hwf : WF g)
    (hc : Cyclic g) : (kahnOutput g).length < g.length := by
  rcases Nat.lt_or_ge (kahnOutput g).length g.length with hlt | hge
  · exact hlt
  · exfalso
    have heq : (kahnOutput g).length = g.length :=
      le_antisymm (kahnOutput_length_le hwf) hge
    obtain ⟨-, h2, h3, h4, -⟩ := kahnOutput_props hwf
    have hperm : List.Perm (kahnOutput g) (keys g) := by
      refine (h2.subperm h3).perm_of_length_le ?_
      rw [keys_length, heq]
    obtain ⟨n, hn⟩ := hc
    have hnk : n ∈ keys g := by
      cases hn with
      | single hr => exact edgeR_target_mem hwf hr
      | tail h hr => exact edgeR_target_mem hwf hr
    have hns : n ∈ kahnOutput g := hperm.mem_iff.2 hnk
    obtain ⟨j, hj⟩ := mem_exists_getElem? hns
    obtain ⟨i, hij, hi⟩ := transGen_before h4 hn j hj
    have hilen : i < (kahnOutput g).length := by
      by_contra hge2
      rw [List.getElem?_eq_none (by omega)] at hi
      cases hi
    have : i = j := List.getElem?_inj hilen h2 (by rw [hi, hj])
    omega

theorem kahnOutput_perm_of_acyclic {g : Graph} (hwf : WF g)
    (hac : Acyclic g) : List.Perm (kahnOutput g) (keys g) := by
  obtain ⟨-, h2, h3, -, -⟩ := kahnOutput_props hwf
  exact (h2.subperm h3).antisymm
    (hwf.1.subperm (fun m hm => kahnOutput_complete hwf hac m hm))

theorem topological_sort_ok_of_acyclic {g : Graph} (hwf : WF g)
    (hac : Acyclic g) :
    topological_sort g = Except.ok (kahnOutput g) := by
  rw [topological_sort_eq]
  rw [if_pos]
  rw [(kahnOutput_perm_of_acyclic hwf hac).length_eq, keys_length]

theorem topological_sort_error_of_cyclic {g : Graph} (hwf : WF g)
    (hc : Cyclic g) :
    topological_sort g =
      Except.error (DagError.valueError "graph is not acyclic") := by
  rw [topological_sort_eq]
  rw [if_neg]
  have := kahnOutput_short_of_cyclic hwf hc
  omega

theorem strictlyBefore_of_edge {g : Graph} (hwf : WF g) {s : List Node}
    (hs : topological_sort g = Except.ok s) {a b : Node}
    (hab : edgeR g a b) : strictlyBefore s a b := by
  rw [topological_sort_eq] at hs
  by_cases hlen : (kahnOutput g).length = g.length
  · rw [if_pos hlen] at hs
    obtain ⟨-, h2, h3, h4, -⟩ := kahnOutput_props hwf
    obtain rfl : s = kahnOutput g := (Except.ok.inj hs).symm
    have hperm : List.Perm (kahnOutput g) (keys g) :=
      (h2.subperm h3).perm_of_length_le (by rw [keys_length, hlen])
    have hb : b ∈ kahnOutput g := hperm.mem_iff.2 (edgeR_target_mem hwf hab)
    obtain ⟨j, hj⟩ := mem_exists_getElem? hb
    obtain ⟨i, hij, hi⟩ := h4 j b hj a hab
    exact ⟨i, j, hij, hi, hj⟩
  · rw [if_neg hlen] at hs
    cases hs

/-! ### validate on acyclic graphs -/

theorem WF_nil : WF ([] : Graph) := by
  constructor
  · simp [keys]
  · intro p hp
    simp at hp

theorem edgeR_nil (a b : Node) : ¬ edgeR [] a b := by
  intro h
  simp [edgeR, successors, lookupSuccs] at h

theorem topological_sortM_snd (g : Graph) : (topological_sortM g).2 = g :=
  sortLoopG_graph g _ _ _ _

theorem topological_sortM_eq (g : Graph) :
    topological_sortM g = (topological_sort g, g) := by
  have h2 := topological_sortM_snd g
  exact Prod.ext rfl h2

theorem validateM_snd (g : Graph) : (validateM g).2 = g := by
  unfold validateM
  rw [topological_sortM_eq]
  by_cases h : (independent_nodes g).length > 0
  · rw [if_pos h]
    cases topological_sort g <;> rfl
  · rw [if_neg h]

theorem independent_nodes_length_pos {g : Graph} (hwf : WF g)
    (hne : g ≠ []) (hac : Acyclic g) :
    (independent_nodes g).length > 0 := by
  classical
  by_contra hcon
  have hnil : independent_nodes g = [] := by
    cases h : independent_nodes g with
    | nil => rfl
    | cons a l => rw [h] at hcon; simp at hcon
  have hall : ∀ n ∈ keys g, n ∈ allSuccs g := by
    intro n hn
    have := List.filter_eq_nil_iff.1 hnil n hn
    simpa using this
  have hpred : ∀ n ∈ keys g, ∃ a ∈ keys g, edgeR g a n := by
    intro n hn
    have hmem := hall n hn
    rw [allSuccs_eq_flatMap hwf.1] at hmem
    obtain ⟨a, ha, hna⟩ := List.mem_flatMap.1 hmem
    exact ⟨a, ha, hna⟩
  have hkne : keys g ≠ [] := by
    intro h
    apply hne
    cases g with
    | nil => rfl
    | cons p rest => simp [keys] at h
  obtain ⟨n0, hn0⟩ := List.exists_mem_of_ne_nil _ hkne
  have hcyc := cycle_of_all_have_pred (edgeR g) (keys g).toFinset
    ⟨n0, List.mem_toFinset.2 hn0⟩
    (by
      intro x hx
      obtain ⟨a, ha, hr⟩ := hpred x (List.mem_toFinset.1 hx)
      exact ⟨a, List.mem_toFinset.2 ha, hr⟩)
  exact hac hcyc

theorem validate_true_of_acyclic {g : Graph} (hwf : WF g) (hne : g ≠ [])
    (hac : Acyclic g) : validate g = true := by
  unfold validate validateM
  rw [if_pos (independent_nodes_length_pos hwf hne hac),
    topological_sortM_eq, topological_sort_ok_of_acyclic hwf hac]

theorem add_edge_succeeds {g : Graph} (hwf : WF g) {f t : Node}
    (hf : f ∈ keys g) (ht : t ∈ keys g) (hac : Acyclic g) :
    ∃ g', add_edge g f t = Except.ok g' := by
  unfold add_edge
  rw [if_neg (by simp [hasNode_iff_mem_keys, hf, ht])]
  by_cases hmem : (successors g f).contains t
  · rw [if_pos hmem]
    exact ⟨g, rfl⟩
  · rw [if_neg hmem]
    have hne : g ≠ [] := by
      intro h
      subst h
      simp [keys] at hf
    rw [if_pos (validate_true_of_acyclic hwf hne hac)]
    exact ⟨appendEdge g f t, rfl⟩

theorem add_edge_error_msg {g : Graph} {f t : Node} {e : DagError}
    (hf : f ∈ keys g) (ht : t ∈ keys g)
    (h : add_edge g f t = Except.error e) :
    e = DagError.valueError (f ++ " -> " ++ t) := by
  unfold add_edge at h
  rw [if_neg (by simp [hasNode_iff_mem_keys, hf, ht])] at h
  by_cases hmem : (successors g f).contains t
  · rw [if_pos hmem] at h
    cases h
  · rw [if_neg hmem] at h
    by_cases hv : validate g
    · rw [if_pos hv] at h
      cases h
    · rw [if_neg hv] at h
      exact (Except.error.inj h).symm

/-! ### The build phase of merge_channels -/

theorem addChain_ok_spec :
    ∀ {l : List Node} {g g' : Graph} {prev : Node}, WF g →
      addChain g prev l = Except.ok g' →
      WF g' ∧ (∀ m, m ∈ keys g' ↔ m ∈ keys g ∨ m ∈ l) ∧
      (∀ a b, edgeR g' a b ↔ edgeR g a b ∨ (a, b) ∈ (prev :: l).zip l) := by
  intro l
  induction l with
  | nil =>
    intro g g' prev hwf h
    obtain rfl : g = g' := Except.ok.inj h
    refine ⟨hwf, by simp, by simp⟩
  | cons c rest ih =>
    intro g g' prev hwf h
    rw [addChain] at h
    cases h2 : add_edge (add_node g c) prev c with
    | error e => rw [h2] at h; cases h
    | ok g2 =>
      rw [h2] at h
      have hwf1 : WF (add_node g c) := WF_add_node hwf c
      obtain ⟨hwf2, hkeys2, hedges2⟩ := add_edge_ok_spec hwf1 h2
      obtain ⟨hwf', hkeys', hedges'⟩ := ih hwf2 h
      refine ⟨hwf', ?_, ?_⟩
      · intro m
        rw [hkeys' m, hkeys2, keys_add_node]
        simp [or_assoc]
      · intro a b
        rw [hedges' a b, hedges2 a b, edgeR_add_node]
        rw [List.zip_cons_cons]
        simp [or_assoc]

theorem addList_ok_spec {l : List Node} {g g' : Graph} (hwf : WF g)
    (h : addList g l = Except.ok g') :
    WF g' ∧ (∀ m, m ∈ keys g' ↔ m ∈ keys g ∨ m ∈ l) ∧
    (∀ a b, edgeR g' a b ↔ edgeR g a b ∨ (a, b) ∈ l.zip l.tail) := by
  cases l with
  | nil =>
    obtain rfl : g = g' := Except.ok.inj h
    exact ⟨hwf, by simp, by simp⟩
  | cons c rest =>
    rw [addList] at h
    obtain ⟨hwf', hkeys', hedges'⟩ := addChain_ok_spec (WF_add_node hwf c) h
    refine ⟨hwf', ?_, ?_⟩
    · intro m
      rw [hkeys' m, keys_add_node]
      simp [or_assoc]
    · intro a b
      rw [hedges' a b, edgeR_add_node]
      simp

theorem pairIn_nil (a b : Node) : ¬ pairIn [] a b := by
  rintro ⟨l, hl, -⟩
  simp at hl

theorem pairIn_cons_none (rest : List (Option (List Node))) (a b : Node) :
    pairIn (none :: rest) a b ↔ pairIn rest a b := by
  unfold pairIn
  constructor
  · rintro ⟨l, hl, hp⟩
    rcases List.mem_cons.1 hl with h | h
    · cases h
    · exact ⟨l, h, hp⟩
  · rintro ⟨l, hl, hp⟩
    exact ⟨l, List.mem_cons_of_mem _ hl, hp⟩

theorem pairIn_cons_some (ch : List Node) (rest : List (Option (List Node)))
    (a b : Node) :
    pairIn (some ch :: rest) a b ↔
      (a, b) ∈ ch.zip ch.tail ∨ pairIn rest a b := by
  unfold pairIn
  constructor
  · rintro ⟨l, hl, hp⟩
    rcases List.mem_cons.1 hl with h | h
    · obtain rfl : ch = l := Option.some.inj h.symm
      exact Or.inl hp
    · exact Or.inr ⟨l, h, hp⟩
  · rintro (hp | ⟨l, hl, hp⟩)
    · exact ⟨ch, List.mem_cons_self _ _, hp⟩
    · exact ⟨l, List.mem_cons_of_mem _ hl, hp⟩

theorem buildAll_ok_spec :
    ∀ {ls : List (Option (List Node))} {g g' : Graph}, WF g →
      buildAll g ls = Except.ok g' →
      WF g' ∧ (∀ m, m ∈ keys g' ↔ m ∈ keys g ∨ m ∈ mentioned ls) ∧
      (∀ a b, edgeR g' a b ↔ edgeR g a b ∨ pairIn ls a b) := by
  intro ls
  induction ls with
  | nil =>
    intro g g' hwf h
    obtain rfl : g = g' := Except.ok.inj h
    refine ⟨hwf, by simp [mentioned], ?_⟩
    intro a b
    simp [pairIn_nil]
  | cons o rest ih =>
    intro g g' hwf h
    cases o with
    | none =>
      rw [buildAll] at h
      obtain ⟨hwf', hkeys', hedges'⟩ := ih hwf h
      refine ⟨hwf', ?_, ?_⟩
      · intro m
        rw [hkeys' m]
        simp [mentioned]
      · intro a b
        rw [hedges' a b, pairIn_cons_none]
    | some ch =>
      rw [buildAll] at h
      cases h1 : addList g ch with
      | error e => rw [h1] at h; cases h
      | ok g1 =>
        rw [h1] at h
        obtain ⟨hwf1, hkeys1, hedges1⟩ := addList_ok_spec hwf h1
        obtain ⟨hwf', hkeys', hedges'⟩ := ih hwf1 h
        refine ⟨hwf', ?_, ?_⟩
        · intro m
          rw [hkeys' m, hkeys1 m]
          simp [mentioned, or_assoc]
        · intro a b
          rw [hedges' a b, hedges1 a b, pairIn_cons_some]
          tauto

theorem addChain_succeeds (R : Node → Node → Prop)
    (hR : ¬ ∃ n, Relation.TransGen R n n) :
    ∀ {l : List Node} {g : Graph} {prev : Node}, WF g → prev ∈ keys g →
      (∀ a b, edgeR g a b → R a b) →
      (∀ p ∈ (prev :: l).zip l, R p.1 p.2) →
      ∃ g', addChain g prev l = Except.ok g' := by
  intro l
  induction l with
  | nil =>
    intro g prev hwf hprev hsub hpairs
    exact ⟨g, rfl⟩
  | cons c rest ih =>
    intro g prev hwf hprev hsub hpairs
    have hwf1 : WF (add_node g c) := WF_add_node hwf c
    have hprev1 : prev ∈ keys (add_node g c) :=
      (keys_add_node g c prev).2 (Or.inl hprev)
    have hc1 : c ∈ keys (add_node g c) :=
      (keys_add_node g c c).2 (Or.inr rfl)
    have hsub1 : ∀ a b, edgeR (add_node g c) a b → R a b :=
      fun a b h => hsub a b ((edgeR_add_node g c a b).1 h)
    have hac1 : Acyclic (add_node g c) := by
      rintro ⟨n, hn⟩
      exact hR ⟨n, hn.mono (fun x y h => hsub1 x y h)⟩
    obtain ⟨g2, h2⟩ := add_edge_succeeds hwf1 hprev1 hc1 hac1
    obtain ⟨hwf2, hkeys2, hedges2⟩ := add_edge_ok_spec hwf1 h2
    have hc2 : c ∈ keys g2 := by rw [hkeys2]; exact hc1
    have hsub2 : ∀ a b, edgeR g2 a b → R a b := by
      intro a b h
      rcases (hedges2 a b).1 h with h | ⟨rfl, rfl⟩
      · exact hsub1 a b h
      · exact hpairs (a, b) (by rw [List.zip_cons_cons]; simp)
    have hpairs2 : ∀ p ∈ (c :: rest).zip rest, R p.1 p.2 := by
      intro p hp
      exact hpairs p (by rw [List.zip_cons_cons]; exact List.mem_cons_of_mem _ hp)
    obtain ⟨g', h'⟩ := ih hwf2 hc2 hsub2 hpairs2
    refine ⟨g', ?_⟩
    rw [addChain, h2]
    exact h'

theorem addList_succeeds (R : Node → Node → Prop)
    (hR : ¬ ∃ n, Relation.TransGen R n n) {l : List Node} {g : Graph}
    (hwf : WF g) (hsub : ∀ a b, edgeR g a b → R a b)
    (hpairs : ∀ p ∈ l.zip l.tail, R p.1 p.2) :
    ∃ g', addList g l = Except.ok g' := by
  cases l with
  | nil => exact ⟨g, rfl⟩
  | cons c rest =>
    have hwf1 : WF (add_node g c) := WF_add_node hwf c
    have hc1 : c ∈ keys (add_node g c) :=
      (keys_add_node g c c).2 (Or.inr rfl)
    have hsub1 : ∀ a b, edgeR (add_node g c) a b → R a b :=
      fun a b h => hsub a b ((edgeR_add_node g c a b).1 h)
    obtain ⟨g', h'⟩ := addChain_succeeds R hR hwf1 hc1 hsub1
      (by simpa using hpairs)
    exact ⟨g', h'⟩

theorem buildAll_succeeds (R : Node → Node → Prop)
    (hR : ¬ ∃ n, Relation.TransGen R n n) :
    ∀ {ls : List (Option (List Node))} {g : Graph}, WF g →
      (∀ a b, edgeR g a b → R a b) →
      (∀ l, some l ∈ ls → ∀ p ∈ l.zip l.tail, R p.1 p.2) →
      ∃ g', buildAll g ls = Except.ok g' := by
  intro ls
  induction ls with
  | nil =>
    intro g hwf hsub hpairs
    exact ⟨g, rfl⟩
  | cons o rest ih =>
    intro g hwf hsub hpairs
    cases o with
    | none =>
      obtain ⟨g', h'⟩ := ih hwf hsub
        (fun l hl => hpairs l (List.mem_cons_of_mem _ hl))
      exact ⟨g', h'⟩
    | some ch =>
      obtain ⟨g1, h1⟩ := addList_succeeds R hR hwf hsub
        (hpairs ch (List.mem_cons_self _ _))
      obtain ⟨hwf1, -, hedges1⟩ := addList_ok_spec hwf h1
      have hsub1 : ∀ a b, edgeR g1 a b → R a b := by
        intro a b h
        rcases (hedges1 a b).1 h with h | hp
        · exact hsub a b h
        · exact hpairs ch (List.mem_cons_self _ _) (a, b) hp
      obtain ⟨g', h'⟩ := ih hwf1 hsub1
        (fun l hl => hpairs l (List.mem_cons_of_mem _ hl))
      refine ⟨g', ?_⟩
      rw [buildAll, h1]
      exact h'

/-! ### merge never lets a KeyError escape -/

theorem addChain_no_keyError :
    ∀ {l : List Node} {g : Graph} {prev : Node}, prev ∈ keys g →
      addChain g prev l ≠ Except.error DagError.keyError := by
  intro l
  induction l with
  | nil =>
    intro g prev hprev h
    cases h
  | cons c rest ih =>
    intro g prev hprev h
    rw [addChain] at h
    have hprev1 : prev ∈ keys (add_node g c) :=
      (keys_add_node g c prev).2 (Or.inl hprev)
    have hc1 : c ∈ keys (add_node g c) :=
      (keys_add_node g c c).2 (Or.inr rfl)
    cases h2 : add_edge (add_node g c) prev c with
    | error e =>
      rw [h2] at h
      have := add_edge_error_msg hprev1 hc1 h2
      subst this
      cases h
    | ok g2 =>
      rw [h2] at h
      have hc2 : c ∈ keys g2 := by
        rw [add_edge_ok_keys h2]
        exact hc1
      exact ih hc2 h

theorem addList_no_keyError {l : List Node} {g : Graph} :
    addList g l ≠ Except.error DagError.keyError := by
  cases l with
  | nil => intro h; cases h
  | cons c rest =>
    rw [addList]
    exact addChain_no_keyError ((keys_add_node g c c).2 (Or.inr rfl))

theorem buildAll_no_keyError :
    ∀ {ls : List (Option (List Node))} {g : Graph},
      buildAll g ls ≠ Except.error DagError.keyError := by
  intro ls
  induction ls with
  | nil =>
    intro g h
    cases h
  | cons o rest ih =>
    intro g h
    cases o with
    | none => exact ih h
    | some ch =>
      rw [buildAll] at h
      cases h1 : addList g ch with
      | error e =>
        rw [h1] at h
        have : e = DagError.keyError := by
          have := Except.error.inj h
          exact this
        subst this
        exact addList_no_keyError h1
      | ok g1 =>
        rw [h1] at h
        exact ih h

theorem topological_sort_no_keyError (g : Graph) :
    topological_sort g ≠ Except.error DagError.keyError := by
  rw [topological_sort_eq]
  by_cases h : (kahnOutput g).length = g.length
  · rw [if_pos h]; intro hc; cases hc
  · rw [if_neg h]; intro hc; cases hc

/-! ### merge_channels: top-level behaviour -/

theorem merge_channels_ok_of_acyclic {ls : List (Option (List Node))}
    (hac : AcyclicPairs ls) :
    ∃ s, merge_channels ls = MergeOutcome.ok s ∧ s.Nodup ∧
      (∀ x, x ∈ s ↔ x ∈ mentioned ls) := by
  obtain ⟨G, hG⟩ := buildAll_succeeds (pairIn ls) hac WF_nil
    (fun a b h => absurd h (edgeR_nil a b))
    (fun l hl p hp => ⟨l, hl, by simpa using hp⟩)
  obtain ⟨hwfG, hkeysG, hedgesG⟩ := buildAll_ok_spec WF_nil hG
  have hacG : Acyclic G := by
    rintro ⟨n, hn⟩
    refine hac ⟨n, hn.mono ?_⟩
    intro x y h
    rcases (hedgesG x y).1 h with h | h
    · exact absurd h (edgeR_nil x y)
    · exact h
  have htopo := topological_sort_ok_of_acyclic hwfG hacG
  have hperm := kahnOutput_perm_of_acyclic hwfG hacG
  obtain ⟨-, hnod, -, -, -⟩ := kahnOutput_props hwfG
  refine ⟨kahnOutput G, ?_, hnod, ?_⟩
  · simp only [merge_channels, hG, htopo]
  · intro x
    rw [hperm.mem_iff, hkeysG x]
    simp [keys]

theorem merge_channels_of_build_ok {ls : List (Option (List Node))}
    {G : Graph} (hG : buildAll [] ls = Except.ok G) :
    merge_channels ls =
      match topological_sort G with
      | Except.ok s => MergeOutcome.ok s
      | Except.error DagError.keyError => MergeOutcome.uncaught
      | Except.error (DagError.valueError m) =>
        MergeOutcome.mergeError ("Can't satisfy channels priority: " ++ m) := by
  unfold merge_channels
  rw [hG]

theorem merge_channels_of_build_error {ls : List (Option (List Node))}
    {m : String}
    (hG : buildAll [] ls = Except.error (DagError.valueError m)) :
    merge_channels ls =
      MergeOutcome.mergeError ("Can't satisfy channels priority: " ++ m) := by
  unfold merge_channels
  rw [hG]

theorem merge_channels_ok_strictlyBefore {ls : List (Option (List Node))}
    {s : List Node} (h : merge_channels ls = MergeOutcome.ok s) :
    ∀ a b, pairIn ls a b → strictlyBefore s a b := by
  cases hG : buildAll [] ls with
  | error e =>
    cases e with
    | keyError => exact absurd hG buildAll_no_keyError
    | valueError m =>
      rw [merge_channels_of_build_error hG] at h
      cases h
  | ok G =>
    rw [merge_channels_of_build_ok hG] at h
    cases htop : topological_sort G with
    | error e =>
      rw [htop] at h
      cases e <;> cases h
    | ok s0 =>
      rw [htop] at h
      obtain rfl : s0 = s := MergeOutcome.ok.inj h
      obtain ⟨hwfG, -, hedgesG⟩ := buildAll_ok_spec WF_nil hG
      intro a b hp
      have he : edgeR G a b := (hedgesG a b).2 (Or.inr hp)
      exact strictlyBefore_of_edge hwfG htop he

theorem merge_channels_ne_uncaught (ls : List (Option (List Node))) :
    merge_channels ls ≠ MergeOutcome.uncaught := by
  cases hG : buildAll [] ls with
  | error e =>
    cases e with
    | keyError => exact absurd hG buildAll_no_keyError
    | valueError m =>
      rw [merge_channels_of_build_error hG]
      intro hc
      cases hc
  | ok G =>
    rw [merge_channels_of_build_ok hG]
    cases htop : topological_sort G with
    | ok s =>
      intro hc
      cases hc
    | error e =>
      cases e with
      | keyError => exact absurd htop (topological_sort_no_keyError G)
      | valueError m =>
        intro hc
        cases hc

/-! ## The claims -/

/-- Claim C1. The spec demands: if committing an edge would make the graph
cyclic, add_edge fails with a CycleError naming the (from,to) pair, the
edge is not committed, and the graph is unchanged.  The code violates
this: it builds the test_graph copy with the candidate edge but then
validates the graph WITHOUT it, so on the graph a -> b the call
add_edge(b, a) succeeds and commits the cycle-creating edge.  This theorem
evaluates the code at that failing input: the call returns ok, the edge is
committed, and the resulting stored graph has the cycle a -> b -> a. -/
theorem C1_add_edge_commits_cycle_edge :
    add_edge [("a", ["b"]), ("b", [])] "b" "a" =
      Except.ok [("a", ["b"]), ("b", ["a"])] ∧
    Relation.TransGen (edgeR [("a", ["b"]), ("b", ["a"])]) "a" "a" :=
  ⟨rfl, Relation.TransGen.head (b := "b") (by decide)
    (Relation.TransGen.single (by decide))⟩

/-- Claim C2. The spec demands that the graph is acyclic after every
successful mutation.  The code violates this: the successful call
sequence add_node(a); add_node(b); add_edge(a,b); add_edge(b,a) — no call
reports an error — leaves the stored graph with the directed cycle
a -> b -> a, because add_edge validates the pre-edge graph instead of the
test_graph copy. -/
theorem C2_acyclic_invariant_violated :
    add_node (add_node ([] : Graph) "a") "b" = [("a", []), ("b", [])] ∧
    add_edge [("a", []), ("b", [])] "a" "b" =
      Except.ok [("a", ["b"]), ("b", [])] ∧
    add_edge [("a", ["b"]), ("b", [])] "b" "a" =
      Except.ok [("a", ["b"]), ("b", ["a"])] ∧
    Relation.TransGen (edgeR [("a", ["b"]), ("b", ["a"])]) "a" "a" :=
  ⟨rfl, rfl, rfl, Relation.TransGen.head (b := "b") (by decide)
    (Relation.TransGen.single (by decide))⟩

/-- Claim C3. The spec demands that merging the contradictory inputs
[[a,b],[b,a]] fails with a merge-conflict error carrying the conflicting
pair.  The code does fail and returns no ordering, but — because the
cycle-creating edge is committed by add_edge instead of rejected there —
the failure only surfaces at the final topological sort, and the
MergeError message is the generic text below, which does not name the
conflicting pair. -/
theorem C3_conflict_error_lacks_pair :
    merge_channels [some ["a", "b"], some ["b", "a"]] =
      MergeOutcome.mergeError
        "Can't satisfy channels priority: graph is not acyclic" := rfl

/-- Claim C4: for every sequence of input lists whose combined pairwise
constraints are acyclic, merge_channels succeeds and returns a list
containing each mentioned identifier exactly once and nothing else; in
particular with no mentioned identifiers it returns the empty list. -/
theorem C4_merge_ok_of_acyclic (ls : List (Option (List Node)))
    (hac : AcyclicPairs ls) :
    ∃ s, merge_channels ls = MergeOutcome.ok s ∧ s.Nodup ∧
      (∀ x, x ∈ s ↔ x ∈ mentioned ls) ∧ (mentioned ls = [] → s = []) := by
  obtain ⟨s, hok, hnod, hmem⟩ := merge_channels_ok_of_acyclic hac
  refine ⟨s, hok, hnod, hmem, ?_⟩
  intro hnil
  refine List.eq_nil_iff_forall_not_mem.2 ?_
  intro x hx
  have := (hmem x).1 hx
  rw [hnil] at this
  cases this

/-- Witness for C4 at the all-absent input [none, none]: the combined
constraints are trivially acyclic and the merge returns the empty
list. -/
theorem C4_witness :
    AcyclicPairs ([none, none] : List (Option (List Node))) ∧
    ∃ s, merge_channels ([none, none] : List (Option (List Node))) =
        MergeOutcome.ok s ∧ s.Nodup ∧
      (∀ x, x ∈ s ↔ x ∈ mentioned ([none, none] :
        List (Option (List Node)))) ∧
      (mentioned ([none, none] : List (Option (List Node))) = [] →
        s = []) := by
  have hac : AcyclicPairs ([none, none] : List (Option (List Node))) := by
    rintro ⟨n, hn⟩
    cases hn with
    | single h => obtain ⟨l, hl, -⟩ := h; simp at hl
    | tail h1 h2 => obtain ⟨l, hl, -⟩ := h2; simp at hl
  exact ⟨hac, C4_merge_ok_of_acyclic _ hac⟩

/-- Claim C5: whenever merge_channels succeeds, every pair (a,b) with a
immediately preceding b in some input list has a strictly before b in the
returned ordering. -/
theorem C5_output_respects_input_pairs (ls : List (Option (List Node)))
    (s : List Node) (h : merge_channels ls = MergeOutcome.ok s) :
    ∀ a b, pairIn ls a b → strictlyBefore s a b :=
  merge_channels_ok_strictlyBefore h

/-- Witness for C5 at the input [[a,b]], whose merge returns [a,b]. -/
theorem C5_witness :
    merge_channels [some ["a", "b"]] = MergeOutcome.ok ["a", "b"] ∧
    ∀ a b, pairIn [some ["a", "b"]] a b →
      strictlyBefore ["a", "b"] a b :=
  ⟨rfl, C5_output_respects_input_pairs [some ["a", "b"]] ["a", "b"] rfl⟩

/-- Claim C6: for every well-formed graph however built (unique keys, no
dangling successors — the spec §3 data-model invariant): if acyclic,
topological_sort returns the collected Kahn output, a sequence containing
every node exactly once in which for every edge (from,to) the source
appears strictly before the target; if cyclic, the collected output is
shorter than the node count and the call fails with the
ValueError('graph is not acyclic'). -/
theorem C6_topological_sort_correct (g : Graph) (hwf : WF g) :
    (Acyclic g →
      topological_sort g = Except.ok (kahnOutput g) ∧
      List.Perm (kahnOutput g) (keys g) ∧
      (∀ a b, edgeR g a b → strictlyBefore (kahnOutput g) a b)) ∧
    (Cyclic g →
      (kahnOutput g).length < g.length ∧
      topological_sort g =
        Except.error (DagError.valueError "graph is not acyclic")) := by
  constructor
  · intro hac
    have h1 := topological_sort_ok_of_acyclic hwf hac
    exact ⟨h1, kahnOutput_perm_of_acyclic hwf hac,
      fun a b hab => strictlyBefore_of_edge hwf h1 hab⟩
  · intro hc
    exact ⟨kahnOutput_short_of_cyclic hwf hc,
      topological_sort_error_of_cyclic hwf hc⟩

/-- Witness for C6 at the two-node graph a -> b. -/
theorem C6_witness :
    WF [("a", ["b"]), ("b", [])] ∧
    ((Acyclic [("a", ["b"]), ("b", [])] →
      topological_sort [("a", ["b"]), ("b", [])] =
        Except.ok (kahnOutput [("a", ["b"]), ("b", [])]) ∧
      List.Perm (kahnOutput [("a", ["b"]), ("b", [])])
        (keys [("a", ["b"]), ("b", [])]) ∧
      (∀ a b, edgeR [("a", ["b"]), ("b", [])] a b →
        strictlyBefore (kahnOutput [("a", ["b"]), ("b", [])]) a b)) ∧
    (Cyclic [("a", ["b"]), ("b", [])] →
      (kahnOutput [("a", ["b"]), ("b", [])]).length <
        ([("a", ["b"]), ("b", [])] : Graph).length ∧
      topological_sort [("a", ["b"]), ("b", [])] =
        Except.error (DagError.valueError "graph is not acyclic"))) :=
  ⟨by decide, C6_topological_sort_correct _ (by decide)⟩

/-- Claim C7: merge_channels is deterministic — two calls on identical
input return identical output. -/
theorem C7_merge_deterministic (l1 l2 : List (Option (List Node)))
    (h : l1 = l2) : merge_channels l1 = merge_channels l2 := by
  rw [h]

/-- Witness for C7 at a concrete input. -/
theorem C7_witness :
    merge_channels [some ["a", "b"], some ["b", "c"]] =
      merge_channels [some ["a", "b"], some ["b", "c"]] :=
  C7_merge_deterministic _ _ rfl

/-- Claim C8 (counterexample). In the graph with nodes a, b, c inserted
in that order and the single edge b -> a: the sort emits b first, and at
that point both a and c have zero remaining in-degree simultaneously
(their total in-degree minus the edges already processed from the emitted
prefix [b] is zero).  The claim then requires a — added before c — to be
emitted first among them, but the output is [b, c, a]: c is emitted
strictly before a.  So insertion order does NOT decide simultaneous
zero-in-degree ties in general. -/
theorem C8_counterexample_tiebreak :
    topological_sort [("a", []), ("b", ["a"]), ("c", [])] =
      Except.ok ["b", "c", "a"] ∧
    initInDegree [("a", []), ("b", ["a"]), ("c", [])] "a" -
      procCount [("a", []), ("b", ["a"]), ("c", [])] ["b"] "a" = 0 ∧
    initInDegree [("a", []), ("b", ["a"]), ("c", [])] "c" -
      procCount [("a", []), ("b", ["a"]), ("c", [])] ["b"] "c" = 0 ∧
    keys [("a", []), ("b", ["a"]), ("c", [])] = ["a", "b", "c"] ∧
    strictlyBefore ["b", "c", "a"] "c" "a" :=
  ⟨rfl, by decide, by decide, rfl, 1, 2, by omega, rfl, rfl⟩

/-- Claim C8 (amended): the tie-break follows the FIFO queue, not global
insertion order.  What does hold: the nodes whose in-degree is zero at
the start of the sort form the initial segment of the output, in node
insertion order (the queue is seeded by filtering the insertion-ordered
key list). -/
theorem C8_initial_segment_in_insertion_order (g : Graph) (s : List Node)
    (hwf : WF g) (h : topological_sort g = Except.ok s) :
    ∃ rest, s = initialQueue g ++ rest ∧
      initialQueue g = (keys g).filter (fun n => initInDegree g n = 0) := by
  rw [topological_sort_eq] at h
  by_cases hlen : (kahnOutput g).length = g.length
  · rw [if_pos hlen] at h
    obtain rfl : kahnOutput g = s := Except.ok.inj h
    obtain ⟨⟨rest, hrest⟩, -, -, -, -⟩ := kahnOutput_props hwf
    exact ⟨rest, hrest, rfl⟩
  · rw [if_neg hlen] at h
    cases h

/-- Witness for the amended C8 at the counterexample graph: [b, c, a]
indeed starts with the insertion-ordered zero-in-degree nodes [b, c]. -/
theorem C8_amended_witness :
    WF [("a", []), ("b", ["a"]), ("c", [])] ∧
    topological_sort [("a", []), ("b", ["a"]), ("c", [])] =
      Except.ok ["b", "c", "a"] ∧
    ∃ rest, ["b", "c", "a"] =
        initialQueue [("a", []), ("b", ["a"]), ("c", [])] ++ rest ∧
      initialQueue [("a", []), ("b", ["a"]), ("c", [])] =
        (keys [("a", []), ("b", ["a"]), ("c", [])]).filter
          (fun n => initInDegree [("a", []), ("b", ["a"]), ("c", [])] n = 0) :=
  ⟨by decide, rfl,
    C8_initial_segment_in_insertion_order _ _ (by decide) rfl⟩

/-- Claim C9: the MissingNodeError (KeyError) branch of add_edge is
unreachable from merge_channels — the builder registers both endpoints
before every edge, so the graph-building phase never returns a KeyError
and no KeyError ever escapes the except-ValueError handler. -/
theorem C9_no_missing_node_error (ls : List (Option (List Node))) :
    buildAll [] ls ≠ Except.error DagError.keyError ∧
    merge_channels ls ≠ MergeOutcome.uncaught :=
  ⟨buildAll_no_keyError, merge_channels_ne_uncaught ls⟩

/-- Claim C10: topological_sort never mutates the stored graph — run as a
state transformer it returns the graph unchanged, whether it produces an
ordering or an error; validate, which invokes it, likewise; hence
repeated calls return identical results. -/
theorem C10_topological_sort_preserves_graph (g : Graph) :
    (topological_sortM g).2 = g ∧ (validateM g).2 = g ∧
    topological_sortM ((topological_sortM g).2) = topological_sortM g ∧
    validateM ((validateM g).2) = validateM g := by
  refine ⟨topological_sortM_snd g, validateM_snd g, ?_, ?_⟩
  · rw [topological_sortM_snd g]
  · rw [validateM_snd g]

end CondaMerge
